import Mathlib

/-!
Verification of the AMD SMU PM-table field-identification scripts
(`scripts/analyze_pm_table.py` and `scripts/analyze_temps.py`).

The scripts scan an in-memory byte buffer (the PM table) at 4-byte-aligned
offsets, decode IEEE-754 binary32 little-endian values, classify them against
physical-quantity ranges, detect per-core arrays, rank candidates, and
optionally monitor fixed offsets.  Every binary32 value is an exact dyadic
rational (or a NaN / infinity), so the decoder and all comparisons are
modelled exactly over `ℚ`; Python `None` becomes `Option`.
-/

set_option maxRecDepth 100000

namespace SmuTools

/-- Exact model of a Python float as produced by `struct.unpack` on 4 bytes:
either a NaN, a signed infinity, or an exact (dyadic) rational value.
Distinct NaN payloads are collapsed; the scripts never distinguish them. -/
inductive PyFloat where
  | nan : PyFloat
  | inf (neg : Bool) : PyFloat
  | finite (q : ℚ) : PyFloat
deriving DecidableEq

/-- Python truthiness of a float: `0.0` (and `-0.0`) are falsy, every other
float (including NaN and the infinities) is truthy.  The scripts filter with
idioms like `if value and 30 < value < 95`, where `value` may also be `None`
(handled at the `Option` layer by the callers). -/
def truthy : PyFloat → Bool
  | .nan => true
  | .inf _ => true
  | .finite q => decide (q ≠ 0)

/-- Python comparison `a < v` between a finite rational bound and a float
(IEEE semantics: false against NaN, true against +inf, false against -inf). -/
def qltF (a : ℚ) : PyFloat → Bool
  | .nan => false
  | .inf neg => !neg
  | .finite q => decide (a < q)

/-- Python comparison `v < b` between a float and a finite rational bound. -/
def fltQ : PyFloat → ℚ → Bool
  | .nan, _ => false
  | .inf neg, _ => neg
  | .finite q, b => decide (q < b)

/-- Value of the IEEE-754 binary32 datum with sign bit `s`, biased exponent
field `e` and mantissa field `m` (`struct.unpack` result, exactly).  Powers
of two are computed over `Nat` and cast to `ℚ` so that concrete instances
evaluate cheaply. -/
def f32val (s e m : Nat) : PyFloat :=
  if e = 255 then
    if m = 0 then .inf (s = 1) else .nan
  else
    let mag : ℚ :=
      if e = 0 then (m : ℚ) / ((2 ^ 149 : Nat) : ℚ)
      else ((2 ^ 23 + m : Nat) : ℚ) * ((2 ^ e : Nat) : ℚ) / ((2 ^ 150 : Nat) : ℚ)
    .finite (if s = 1 then -mag else mag)

/-- Interpretation of a 32-bit word as a binary32 float: sign, exponent and
mantissa fields are the usual bit slices. -/
def f32ofBits (bits : Nat) : PyFloat :=
  f32val (bits / 2 ^ 31 % 2) (bits / 2 ^ 23 % 256) (bits % 2 ^ 23)

/-- Little-endian assembly of 4 bytes into a 32-bit word followed by binary32
interpretation; models `struct.unpack('<f', data[offset:offset+4])[0]`. -/
def decodeF32 (b0 b1 b2 b3 : Nat) : PyFloat :=
  f32ofBits (b0 + 256 * b1 + 65536 * b2 + 16777216 * b3)

/-- Model of `read_f32(data, offset)` from both scripts: returns `None`
(`none`) when `offset + 4 > len(data)`, otherwise unpacks the 4 bytes
`data[offset:offset+4]` as a little-endian binary32 float. -/
def read_f32 (data : List Nat) (offset : Nat) : Option PyFloat :=
  if data.length < offset + 4 then none
  else some (decodeF32 (data.getD offset 0) (data.getD (offset + 1) 0)
    (data.getD (offset + 2) 0) (data.getD (offset + 3) 0))

/-- Model of Python `range(0, stop, 4)` over integers clamped at zero:
the ascending list `[0, 4, 8, ...]` of multiples of 4 strictly below `stop`. -/
def pyRange4 (stop : Nat) : List Nat :=
  (List.range ((stop + 3) / 4)).map (· * 4)

/-- The offsets visited by the single-value scan loops, which all read
`for i in range(0, len(data) - 4, 4)`. -/
def scannedOffsets (n : Nat) : List Nat :=
  pyRange4 (n - 4)

-- Sanity checks of the decoder on the spec's example floats.
example : decodeF32 0 0 72 66 = PyFloat.finite 50 := by with_unfolding_all decide
example : decodeF32 0 0 192 66 = PyFloat.finite 96 := by with_unfolding_all decide
example : decodeF32 0 0 32 65 = PyFloat.finite 10 := by with_unfolding_all decide
example : decodeF32 0 0 52 66 = PyFloat.finite 45 := by with_unfolding_all decide
example : decodeF32 0 0 0 0 = PyFloat.finite 0 := by with_unfolding_all decide
example : decodeF32 0 0 128 127 = PyFloat.inf false := by with_unfolding_all decide
example : decodeF32 1 0 128 127 = PyFloat.nan := by with_unfolding_all decide
example : scannedOffsets 16 = [0, 4, 8] := by with_unfolding_all decide
example : read_f32 [0, 0, 72, 66] 0 = some (PyFloat.finite 50) := by with_unfolding_all decide
example : read_f32 [0, 0, 72, 66] 4 = none := by with_unfolding_all decide

/-- Shared shape of the scripts' scan loops: visit each offset of `l` in
order, apply the per-offset test `F`, and collect `(offset, payload)` pairs
for the offsets that pass. -/
def tagged {α : Type} (F : Nat → Option α) (l : List Nat) : List (Nat × α) :=
  l.filterMap fun i => (F i).map fun v => (i, v)

theorem mem_tagged {α : Type} {F : Nat → Option α} {l : List Nat}
    {i : Nat} {v : α} : (i, v) ∈ tagged F l ↔ i ∈ l ∧ F i = some v := by
  simp only [tagged, List.mem_filterMap, Option.map_eq_some']
  constructor
  · rintro ⟨j, hj, w, hw, hq⟩
    simp only [Prod.mk.injEq] at hq
    obtain ⟨rfl, rfl⟩ := hq
    exact ⟨hj, hw⟩
  · rintro ⟨hl, hF⟩
    exact ⟨i, hl, v, hF, rfl⟩

theorem tagged_pairwise_fst {α : Type} (F : Nat → Option α) {l : List Nat}
    (h : l.Pairwise (· < ·)) :
    (tagged F l).Pairwise fun a b => a.1 < b.1 := by
  rw [tagged, List.pairwise_filterMap]
  refine h.imp_of_mem ?_
  rintro i j - - hij
  simp only [Option.mem_def, Option.map_eq_some']
  rintro a ⟨v, -, rfl⟩ b ⟨w, -, rfl⟩
  exact hij

theorem pairwise_scannedOffsets (n : Nat) :
    (scannedOffsets n).Pairwise (· < ·) := by
  rw [scannedOffsets, pyRange4]
  refine (List.pairwise_lt_range _).map _ ?_
  intro a b hab
  omega

theorem mem_scannedOffsets {n i : Nat} :
    i ∈ scannedOffsets n ↔ 4 ∣ i ∧ i + 4 < n := by
  simp only [scannedOffsets, pyRange4, List.mem_map, List.mem_range]
  constructor
  · rintro ⟨j, hj, rfl⟩
    exact ⟨⟨j, by omega⟩, by omega⟩
  · rintro ⟨⟨j, rfl⟩, h⟩
    exact ⟨j, by omega, by omega⟩

/-- Per-offset body of the range-classification loops, which all read
`value = read_f32(data, i)` followed by `if value and lo < value < hi`. -/
def classAt (data : List Nat) (lo hi : ℚ) (i : Nat) : Option PyFloat :=
  match read_f32 data i with
  | some v => if truthy v && qltF lo v && fltQ v hi then some v else none
  | none => none

/-- Model of the single-value range scans (`search_temps`, `search_power`,
`search_freq`, `search_voltage`, `search_soc_temp`): every 4-byte-aligned
offset produced by `range(0, len(data) - 4, 4)` whose decoded value passes
`value and lo < value < hi`, in ascending offset order. -/
def classify (data : List Nat) (lo hi : ℚ) : List (Nat × PyFloat) :=
  tagged (classAt data lo hi) (scannedOffsets data.length)

/-- The `--temps` scan of `analyze_pm_table.py` (range 30..95). -/
def search_temps (data : List Nat) : List (Nat × PyFloat) :=
  classify data 30 95

/-- The `--power` scan of `analyze_pm_table.py` (range 5..200). -/
def search_power (data : List Nat) : List (Nat × PyFloat) :=
  classify data 5 200

/-- Membership in a classification scan, characterised: an offset/value pair
is listed exactly when the offset is scanned, decodes to that value, and the
value passes the truthiness-guarded strict range test. -/
theorem mem_classify {data : List Nat} {lo hi : ℚ} {i : Nat} {v : PyFloat} :
    (i, v) ∈ classify data lo hi ↔
      i ∈ scannedOffsets data.length ∧ read_f32 data i = some v ∧
        (truthy v && qltF lo v && fltQ v hi) = true := by
  rw [classify, mem_tagged]
  unfold classAt
  cases hr : read_f32 data i with
  | none => simp
  | some w =>
    by_cases hc : (truthy w && qltF lo w && fltQ w hi) = true
    · simp only [hc, if_true, Option.some.injEq]
      constructor
      · rintro ⟨h1, rfl⟩
        exact ⟨h1, rfl, hc⟩
      · rintro ⟨h1, h2, -⟩
        exact ⟨h1, h2⟩
    · simp only [hc, if_false]
      constructor
      · rintro ⟨-, h⟩
        cases h
      · rintro ⟨h1, h2, h3⟩
        cases h2
        exact absurd h3 hc

-- The 16-byte example buffer from the specification, encoding the binary32
-- floats [50.0, 96.0, 10.0, 45.0] in little-endian byte order.
def specBuf16 : List Nat :=
  [0, 0, 72, 66, 0, 0, 192, 66, 0, 0, 32, 65, 0, 0, 52, 66]

example : specBuf16.length = 16 := by with_unfolding_all decide
example : classify specBuf16 30 95 = [(0, PyFloat.finite 50)] := by
  with_unfolding_all decide


/-- An 8-byte all-zero buffer: one scanned offset (0), decoding to `0.0`. -/
def zeroBuf8 : List Nat := [0, 0, 0, 0, 0, 0, 0, 0]

/-- C1 (amended): `classify` scans exactly the 4-byte-aligned offsets strictly
below `length - 4` (the final aligned offset is skipped by
`range(0, len(data) - 4, 4)`), returns its matches in ascending offset order,
and on the 16-byte buffer encoding `[50.0, 96.0, 10.0, 45.0]` with range
`(30, 95)` it returns a match at offset 0 only. -/
theorem claim_C1 :
    (∀ n i, i ∈ scannedOffsets n ↔ 4 ∣ i ∧ i + 4 < n) ∧
    (∀ (data : List Nat) (lo hi : ℚ),
      ((classify data lo hi).map Prod.fst).Pairwise (· < ·)) ∧
    classify specBuf16 30 95 = [(0, PyFloat.finite 50)] := by
  refine ⟨fun n i => mem_scannedOffsets, fun data lo hi => ?_,
    by with_unfolding_all decide⟩
  rw [List.pairwise_map]
  exact tagged_pairwise_fst _ (pairwise_scannedOffsets _)

/-- C1 is refuted on the spec's own example: the 16-byte buffer encoding
`[50.0, 96.0, 10.0, 45.0]` scanned with `(30, 95)` yields a match at offset 0
only; offset 12 decodes to the in-range value 45.0 but is never scanned,
because `range(0, 16 - 4, 4)` stops at 8. -/
theorem claim_C1_counterexample :
    specBuf16.length = 16 ∧
    read_f32 specBuf16 12 = some (PyFloat.finite 45) ∧
    (30 : ℚ) < 45 ∧ (45 : ℚ) < 95 ∧
    classify specBuf16 30 95 = [(0, PyFloat.finite 50)] := by
  with_unfolding_all decide

/-- C4 (amended): a scanned aligned offset appears in a classification result
exactly when its decoded value passes the source's guard
`value and lo < value < hi`, i.e. the strict range test AND Python
truthiness (which excludes an exact `0.0`); in particular an offset holding
exactly 95.0 scanned with range `(30, 95)` is never returned. -/
theorem claim_C4 :
    (∀ (data : List Nat) (lo hi : ℚ) (i : Nat) (v : PyFloat),
      (i, v) ∈ classify data lo hi ↔
        i ∈ scannedOffsets data.length ∧ read_f32 data i = some v ∧
          (truthy v && qltF lo v && fltQ v hi) = true) ∧
    (∀ (data : List Nat) (i : Nat),
      (i, PyFloat.finite 95) ∉ classify data 30 95) := by
  refine ⟨fun data lo hi i v => mem_classify, fun data i h => ?_⟩
  rcases mem_classify.mp h with ⟨-, -, hc⟩
  rw [Bool.and_eq_true, Bool.and_eq_true] at hc
  have h95 : ((95 : ℚ) < 95) := of_decide_eq_true hc.2
  exact absurd h95 (lt_irrefl _)

/-- C4 as stated is refuted for ranges containing zero: on an all-zero
8-byte buffer, offset 0 is scanned and decodes to `0.0`, which lies strictly
inside the range `(-1, 1)`, yet `classify` returns nothing because the
source's guard `if value and ...` treats `0.0` as falsy. -/
theorem claim_C4_counterexample :
    0 ∈ scannedOffsets zeroBuf8.length ∧
    read_f32 zeroBuf8 0 = some (PyFloat.finite 0) ∧
    (-1 : ℚ) < 0 ∧ (0 : ℚ) < 1 ∧
    classify zeroBuf8 (-1) 1 = [] := by
  with_unfolding_all decide

theorem claim_C4_witness : (0, PyFloat.finite 50) ∈ classify specBuf16 30 95 :=
  (claim_C4.1 specBuf16 30 95 0 (PyFloat.finite 50)).mpr
    (by with_unfolding_all decide)

/-- Byte `k` of the little-endian serialisation of a machine word. -/
def byteAt (bits k : Nat) : Nat :=
  bits / 256 ^ k % 256

/-- C5: `read_f32` returns `None` exactly when `offset + 4 > len(data)`;
otherwise it decodes exactly the 4 bytes at the offset as a little-endian
binary32 value, and serialising any 32-bit pattern to its 4 little-endian
bytes and decoding them recovers the interpretation of the original pattern
(bit-for-bit round trip). -/
theorem claim_C5 :
    (∀ (data : List Nat) (off : Nat),
      read_f32 data off = none ↔ off + 4 > data.length) ∧
    (∀ (pre : List Nat) (b0 b1 b2 b3 : Nat) (post : List Nat),
      read_f32 (pre ++ b0 :: b1 :: b2 :: b3 :: post) pre.length =
        some (decodeF32 b0 b1 b2 b3)) ∧
    (∀ bits : Nat, bits < 2 ^ 32 →
      decodeF32 (byteAt bits 0) (byteAt bits 1) (byteAt bits 2)
        (byteAt bits 3) = f32ofBits bits) := by
  refine ⟨fun data off => ?_, fun pre b0 b1 b2 b3 post => ?_, fun bits hb => ?_⟩
  · rw [read_f32]
    split
    · simpa using by omega
    · simp only [reduceCtorEq, false_iff]
      omega
  · have hlen : (pre ++ b0 :: b1 :: b2 :: b3 :: post).length = pre.length + (4 + post.length) := by
      simp [List.length_append]
      omega
    have hget : ∀ k d, (pre ++ b0 :: b1 :: b2 :: b3 :: post).getD (pre.length + k) d =
        (b0 :: b1 :: b2 :: b3 :: post).getD k d := by
      intro k d
      simp [List.getD, List.getElem?_append_right (Nat.le_add_right pre.length k)]
    rw [read_f32]
    split
    · omega
    · have h0 := hget 0 0
      rw [Nat.add_zero] at h0
      rw [hget 1 0, hget 2 0, hget 3 0, h0]
      rfl
  · have hasm : byteAt bits 0 + 256 * byteAt bits 1 + 65536 * byteAt bits 2 +
        16777216 * byteAt bits 3 = bits := by
      simp only [byteAt, pow_zero, pow_one, Nat.div_one,
        show (256 : Nat) ^ 2 = 65536 by norm_num,
        show (256 : Nat) ^ 3 = 16777216 by norm_num]
      omega
    rw [decodeF32, hasm]

theorem claim_C5_witness :
    decodeF32 (byteAt 1112014848 0) (byteAt 1112014848 1)
      (byteAt 1112014848 2) (byteAt 1112014848 3) = f32ofBits 1112014848 :=
  claim_C5.2.2 1112014848 (by norm_num)


instance instDecRelDescBy {α : Type} (key : α → ℚ) :
    DecidableRel fun a b : α => key b ≤ key a :=
  fun a b => inferInstanceAs (Decidable (key b ≤ key a))

/-- Model of `candidates.sort(key=..., reverse=True)` on the candidate
lists: a stable sort placing higher keys first (equal keys keep their
original relative order, as Python's sort guarantees even with
`reverse=True`).  Expressed as an insertion sort with the relation "the
earlier element's key is at least the later element's key". -/
def sortDescBy {α : Type} (key : α → ℚ) (l : List α) : List α :=
  List.insertionSort (fun a b => key b ≤ key a) l

theorem sortDescBy_pairwise_le {α : Type} (key : α → ℚ) (l : List α) :
    (sortDescBy key l).Pairwise fun a b => key b ≤ key a := by
  haveI : IsTotal α fun a b => key b ≤ key a :=
    ⟨fun a b => (le_total (key b) (key a)).imp id id⟩
  haveI : IsTrans α fun a b => key b ≤ key a :=
    ⟨fun a b c hab hbc => le_trans hbc hab⟩
  exact List.sorted_insertionSort _ l

theorem orderedInsert_pairwise_tie {α : Type} (key : α → ℚ) (off : α → Nat)
    (x : α) : ∀ t : List α,
    t.Pairwise (fun a b => key a = key b → off a < off b) →
    (∀ y ∈ t, off x < off y) →
    (List.orderedInsert (fun a b => key b ≤ key a) x t).Pairwise
      fun a b => key a = key b → off a < off b
  | [], _, _ => List.pairwise_singleton _ x
  | y :: t, ht, hx => by
    rw [List.orderedInsert]
    split
    · refine List.Pairwise.cons ?_ ht
      intro w hw _
      exact hx w hw
    · rename_i hnot
      rcases List.pairwise_cons.mp ht with ⟨hyt, ht2⟩
      refine List.Pairwise.cons ?_
        (orderedInsert_pairwise_tie key off x t ht2
          fun z hz => hx z (List.mem_cons_of_mem _ hz))
      intro w hw
      rcases (List.mem_orderedInsert _).mp hw with rfl | hw2
      · intro heq
        exact absurd (le_of_eq heq) hnot
      · exact hyt w hw2

theorem sortDescBy_pairwise_tie {α : Type} (key : α → ℚ) (off : α → Nat) :
    ∀ l : List α, l.Pairwise (fun a b => off a < off b) →
    (sortDescBy key l).Pairwise fun a b => key a = key b → off a < off b
  | [], _ => List.Pairwise.nil
  | x :: l, h => by
    rcases List.pairwise_cons.mp h with ⟨hx, hl⟩
    rw [sortDescBy, List.insertionSort]
    refine orderedInsert_pairwise_tie key off x _
      (sortDescBy_pairwise_tie key off l hl) ?_
    intro y hy
    exact hx y ((List.mem_insertionSort _).mp hy)

/-- Per-offset body of `search_tctl`: keep the decoded value when it passes
`value and 40 < value < 95`.  Only finite values can pass: NaN fails both
comparisons, `+inf` fails the upper bound and `-inf` the lower one, so the
candidate list stores the exact rational value. -/
def tctlAt (data : List Nat) (i : Nat) : Option ℚ :=
  match read_f32 data i with
  | some (.finite q) => if q ≠ 0 ∧ 40 < q ∧ q < 95 then some q else none
  | some .nan => none
  | some (.inf _) => none
  | none => none

/-- Model of `search_tctl` from `analyze_temps.py`: collect every scanned
offset whose value passes `value and 40 < value < 95` (in ascending offset
order), then sort with `candidates.sort(key=lambda x: x[1], reverse=True)`. -/
def search_tctl (data : List Nat) : List (Nat × ℚ) :=
  sortDescBy Prod.snd (tagged (tctlAt data) (scannedOffsets data.length))

/-- C6: the Tctl candidate list is sorted by decoded value in descending
order, and candidates with equal values keep their original ascending-offset
order (the sort is stable). -/
theorem claim_C6 (data : List Nat) :
    (search_tctl data).Pairwise
      fun a b => b.2 ≤ a.2 ∧ (a.2 = b.2 → a.1 < b.1) := by
  have h1 := sortDescBy_pairwise_le Prod.snd
    (tagged (tctlAt data) (scannedOffsets data.length))
  have h2 := sortDescBy_pairwise_tie Prod.snd Prod.fst
    (tagged (tctlAt data) (scannedOffsets data.length))
    (tagged_pairwise_fst _ (pairwise_scannedOffsets _))
  exact h1.and h2


/-- The `unitCount` consecutive decoded floats of the window starting at
`base`: `values = [read_f32(data, base + i * 4) for i in range(core_count)]`. -/
def decodeWindow (data : List Nat) (base n : Nat) : List (Option PyFloat) :=
  (List.range n).map fun i => read_f32 data (base + i * 4)

/-- The finite rational values among a window's decoded entries, in order.
When every entry passed a range test, this is exactly the window's values. -/
def finVals (ws : List (Option PyFloat)) : List ℚ :=
  ws.filterMap fun w =>
    match w with
    | some (.finite q) => some q
    | _ => none

/-- Python `max` over a list of rationals (`0` for the empty list, which the
scripts only hit when the core count is zero). -/
def listMax : List ℚ → ℚ
  | [] => 0
  | q :: qs => qs.foldl max q

/-- Python `min` over a list of rationals. -/
def listMin : List ℚ → ℚ
  | [] => 0
  | q :: qs => qs.foldl min q

/-- Mean of a list of rationals, `sum(values) / len(values)`. -/
def qmean (l : List ℚ) : ℚ :=
  l.sum / (l.length : ℚ)

/-- Spread of a list of rationals, `max(values) - min(values)`. -/
def qspread (l : List ℚ) : ℚ :=
  listMax l - listMin l

/-- A per-core array candidate as built by `search_core_temps`:
the tuple `(base, values, avg, spread)`. -/
structure ArrayCandidate where
  base : Nat
  values : List ℚ
  avg : ℚ
  spread : ℚ
deriving DecidableEq

/-- The strict per-unit test of `search_core_temps`:
`v is not None and 25 < v < 100`. -/
def coreTempOk (w : Option PyFloat) : Bool :=
  match w with
  | some v => qltF 25 v && fltQ v 100
  | none => false

/-- Window body of `search_core_temps` (`analyze_temps.py`): every value
passes the per-unit test, the average lies in `(35, 85)` and the spread is
below 30. -/
def coreTempWindow (data : List Nat) (n base : Nat) : Option ArrayCandidate :=
  let ws := decodeWindow data base n
  if ws.all coreTempOk then
    let qs := finVals ws
    let avg := qs.sum / (n : ℚ)
    let spread := listMax qs - listMin qs
    if 35 < avg ∧ avg < 85 ∧ spread < 30 then
      some ⟨base, qs, avg, spread⟩
    else none
  else none

/-- Model of `search_core_temps(data, num_cores)` from `analyze_temps.py`:
scan bases `range(0, len(data) - num_cores * 4, 4)`, keep the windows that
pass the strict checks, then `candidates.sort(key=lambda x: x[2],
reverse=True)` (sort by average, descending, stable). -/
def search_core_temps (data : List Nat) (n : Nat) : List ArrayCandidate :=
  sortDescBy ArrayCandidate.avg
    ((pyRange4 (data.length - n * 4)).filterMap (coreTempWindow data n))

/-- The truthiness-guarded per-unit test `v and lo < v < hi` used by the
PM-table array scans. -/
def pyRangeOk (lo hi : ℚ) (w : Option PyFloat) : Bool :=
  match w with
  | some v => truthy v && qltF lo v && fltQ v hi
  | none => false

/-- Window body of the temperature-array section of `search_core_arrays`
(`analyze_pm_table.py`): every value passes `v and 25 < v < 95` and the
average lies in `(30, 70)`.  No spread constraint appears in the source. -/
def pmTempWindow (data : List Nat) (n base : Nat) :
    Option (Nat × List ℚ × ℚ) :=
  let ws := decodeWindow data base n
  if ws.all (pyRangeOk 25 95) then
    let qs := finVals ws
    let avg := qs.sum / (n : ℚ)
    if 30 < avg ∧ avg < 70 then some (base, qs, avg) else none
  else none

/-- The temperature-array candidates of `search_core_arrays`, in the order
the source prints them (ascending base offset; the source applies no sort). -/
def search_core_arrays_temps (data : List Nat) (n : Nat) :
    List (Nat × List ℚ × ℚ) :=
  (pyRange4 (data.length - n * 4)).filterMap (pmTempWindow data n)

/-- Window body of the power-array section of `search_core_arrays`: every
value passes `v and 0.5 < v < 20` and the average lies in `(2, 15)`.
No spread constraint appears in the source. -/
def pmPowerWindow (data : List Nat) (n base : Nat) :
    Option (Nat × List ℚ × ℚ) :=
  let ws := decodeWindow data base n
  if ws.all (pyRangeOk (1 / 2) 20) then
    let qs := finVals ws
    let avg := qs.sum / (n : ℚ)
    if 2 < avg ∧ avg < 15 then some (base, qs, avg) else none
  else none

/-- The power-array candidates of `search_core_arrays`, in source print
order (ascending base offset; no sort in the source). -/
def search_core_arrays_power (data : List Nat) (n : Nat) :
    List (Nat × List ℚ × ℚ) :=
  (pyRange4 (data.length - n * 4)).filterMap (pmPowerWindow data n)

/-- The tolerant per-unit frequency test `v and 400 < v < 6000`. -/
def freqOk (w : Option PyFloat) : Bool :=
  pyRangeOk 400 6000 w

/-- Window body of the frequency-array section of `search_core_arrays`
(tolerant mode): keep the window when at least `core_count - 2` of its
values pass `v and 400 < v < 6000`; the raw decoded window is kept. -/
def pmFreqWindow (data : List Nat) (n base : Nat) :
    Option (Nat × List (Option PyFloat)) :=
  let ws := decodeWindow data base n
  if n - 2 ≤ ws.countP freqOk then some (base, ws) else none

/-- The frequency-array candidates of `search_core_arrays`, in source print
order (ascending base offset). -/
def search_core_arrays_freq (data : List Nat) (n : Nat) :
    List (Nat × List (Option PyFloat)) :=
  (pyRange4 (data.length - n * 4)).filterMap (pmFreqWindow data n)

/-- The per-unit frequency predicate of the specification, without the
incidental truthiness guard (equivalent to `freqOk`, since any value in
`(400, 6000)` is nonzero). -/
def inFreqRange (w : Option PyFloat) : Bool :=
  match w with
  | some v => qltF 400 v && fltQ v 6000
  | none => false

theorem freqOk_eq_inFreqRange : freqOk = inFreqRange := by
  funext w
  cases w with
  | none => rfl
  | some v =>
    cases v with
    | nan => rfl
    | inf neg => cases neg <;> rfl
    | finite q =>
      show (decide (q ≠ 0) && decide ((400 : ℚ) < q) && decide (q < 6000)) =
        (decide ((400 : ℚ) < q) && decide (q < 6000))
      by_cases h4 : (400 : ℚ) < q
      · have hq : q ≠ 0 := by
          intro h
          rw [h] at h4
          exact absurd h4 (by norm_num)
        simp [h4, hq]
      · simp [h4]


theorem mem_pyRange4 {stop i : Nat} :
    i ∈ pyRange4 stop ↔ 4 ∣ i ∧ i < stop := by
  simp only [pyRange4, List.mem_map, List.mem_range]
  constructor
  · rintro ⟨j, hj, rfl⟩
    exact ⟨⟨j, by omega⟩, by omega⟩
  · rintro ⟨⟨j, rfl⟩, h⟩
    exact ⟨j, by omega, by omega⟩

theorem pairwise_pyRange4 (stop : Nat) :
    (pyRange4 stop).Pairwise (· < ·) := by
  rw [pyRange4]
  refine (List.pairwise_lt_range _).map _ ?_
  intro a b hab
  omega

theorem decodeWindow_length (data : List Nat) (base n : Nat) :
    (decodeWindow data base n).length = n := by
  rw [decodeWindow, List.length_map, List.length_range]

theorem filterMap_pairwise_base {α : Type} (off : α → Nat)
    (f : Nat → Option α) (hf : ∀ i c, f i = some c → off c = i)
    {l : List Nat} (hl : l.Pairwise (· < ·)) :
    (l.filterMap f).Pairwise fun a b => off a < off b := by
  rw [List.pairwise_filterMap]
  refine hl.imp_of_mem ?_
  rintro i j - - hij a ha b hb
  rw [Option.mem_def] at ha hb
  rw [hf i a ha, hf j b hb]
  exact hij

theorem finVals_all_range {lo hi : ℚ} {P : Option PyFloat → Bool}
    (hP : ∀ w, P w = true →
      ∃ q : ℚ, w = some (PyFloat.finite q) ∧ lo < q ∧ q < hi) :
    ∀ ws : List (Option PyFloat), ws.all P = true →
      (finVals ws).length = ws.length ∧ ∀ q ∈ finVals ws, lo < q ∧ q < hi
  | [], _ => ⟨rfl, by simp [finVals]⟩
  | w :: ws, h => by
    rw [List.all_cons, Bool.and_eq_true] at h
    obtain ⟨q, rfl, hq⟩ := hP w h.1
    obtain ⟨ihlen, ihmem⟩ := finVals_all_range hP ws h.2
    have hcons : finVals (some (PyFloat.finite q) :: ws) = q :: finVals ws := by
      simp [finVals, List.filterMap_cons]
    rw [hcons]
    refine ⟨by simp [ihlen], ?_⟩
    intro p hp
    rcases List.mem_cons.mp hp with rfl | hp2
    · exact hq
    · exact ihmem p hp2

theorem coreTempOk_finite :
    ∀ w, coreTempOk w = true →
      ∃ q : ℚ, w = some (PyFloat.finite q) ∧ 25 < q ∧ q < 100 := by
  intro w hw
  cases w with
  | none => cases hw
  | some v =>
    cases v with
    | nan => cases hw
    | inf neg => cases neg <;> simp [coreTempOk, qltF, fltQ] at hw
    | finite q =>
      simp only [coreTempOk, qltF, fltQ, Bool.and_eq_true,
        decide_eq_true_eq] at hw
      exact ⟨q, rfl, hw⟩

theorem pyRangeOk_finite (lo hi : ℚ) :
    ∀ w, pyRangeOk lo hi w = true →
      ∃ q : ℚ, w = some (PyFloat.finite q) ∧ lo < q ∧ q < hi := by
  intro w hw
  cases w with
  | none => cases hw
  | some v =>
    cases v with
    | nan => cases hw
    | inf neg => cases neg <;> simp [pyRangeOk, truthy, qltF, fltQ] at hw
    | finite q =>
      simp only [pyRangeOk, truthy, qltF, fltQ, Bool.and_eq_true,
        decide_eq_true_eq] at hw
      exact ⟨q, rfl, hw.1.2, hw.2⟩

theorem coreTempWindow_eq_some {data : List Nat} {n base : Nat}
    {c : ArrayCandidate} (h : coreTempWindow data n base = some c) :
    c.base = base ∧ c.values = finVals (decodeWindow data base n) ∧
      c.values.length = n ∧ (∀ q ∈ c.values, 25 < q ∧ q < 100) ∧
      c.avg = c.values.sum / (n : ℚ) ∧ 35 < c.avg ∧ c.avg < 85 ∧
      c.spread = listMax c.values - listMin c.values ∧ c.spread < 30 := by
  simp only [coreTempWindow] at h
  split at h
  · rename_i hall
    split at h
    · rename_i hcond
      cases h
      obtain ⟨hlen, hmem⟩ := finVals_all_range coreTempOk_finite _ hall
      rw [decodeWindow_length] at hlen
      exact ⟨rfl, rfl, hlen, hmem, rfl, hcond.1, hcond.2.1, rfl, hcond.2.2⟩
    · cases h
  · cases h

theorem pmTempWindow_eq_some {data : List Nat} {n base : Nat}
    {t : Nat × List ℚ × ℚ} (h : pmTempWindow data n base = some t) :
    t.1 = base ∧ t.2.1 = finVals (decodeWindow data base n) ∧
      t.2.1.length = n ∧ (∀ q ∈ t.2.1, 25 < q ∧ q < 95) ∧
      t.2.2 = t.2.1.sum / (n : ℚ) ∧ 30 < t.2.2 ∧ t.2.2 < 70 := by
  simp only [pmTempWindow] at h
  split at h
  · rename_i hall
    split at h
    · rename_i hcond
      cases h
      obtain ⟨hlen, hmem⟩ := finVals_all_range (pyRangeOk_finite 25 95) _ hall
      rw [decodeWindow_length] at hlen
      exact ⟨rfl, rfl, hlen, hmem, rfl, hcond.1, hcond.2⟩
    · cases h
  · cases h

theorem pmPowerWindow_eq_some {data : List Nat} {n base : Nat}
    {t : Nat × List ℚ × ℚ} (h : pmPowerWindow data n base = some t) :
    t.1 = base ∧ t.2.1 = finVals (decodeWindow data base n) ∧
      t.2.1.length = n ∧ (∀ q ∈ t.2.1, 1 / 2 < q ∧ q < 20) ∧
      t.2.2 = t.2.1.sum / (n : ℚ) ∧ 2 < t.2.2 ∧ t.2.2 < 15 := by
  simp only [pmPowerWindow] at h
  split at h
  · rename_i hall
    split at h
    · rename_i hcond
      cases h
      obtain ⟨hlen, hmem⟩ :=
        finVals_all_range (pyRangeOk_finite (1 / 2) 20) _ hall
      rw [decodeWindow_length] at hlen
      exact ⟨rfl, rfl, hlen, hmem, rfl, hcond.1, hcond.2⟩
    · cases h
  · cases h

theorem pmFreqWindow_eq_some {data : List Nat} {n b base : Nat}
    {ws : List (Option PyFloat)} :
    pmFreqWindow data n b = some (base, ws) ↔
      b = base ∧ ws = decodeWindow data b n ∧
        n - 2 ≤ (decodeWindow data b n).countP freqOk := by
  simp only [pmFreqWindow]
  split
  · rename_i hcnt
    constructor
    · rintro h
      cases h
      exact ⟨rfl, rfl, hcnt⟩
    · rintro ⟨rfl, rfl, -⟩
      rfl
  · rename_i hcnt
    constructor
    · rintro h
      cases h
    · rintro ⟨rfl, rfl, hc⟩
      exact absurd hc hcnt


/-- A 12-byte buffer encoding `[26.0, 90.0, 0.0]`. -/
def spreadBuf12 : List Nat :=
  [0, 0, 208, 65, 0, 0, 180, 66, 0, 0, 0, 0]

/-- A 12-byte buffer encoding `[50.0, 60.0, 0.0]`. -/
def coreBuf12 : List Nat :=
  [0, 0, 72, 66, 0, 0, 112, 66, 0, 0, 0, 0]

/-- A 16-byte buffer encoding `[31.0, 31.0, 50.0, 50.0]`. -/
def tempBuf16 : List Nat :=
  [0, 0, 248, 65, 0, 0, 248, 65, 0, 0, 72, 66, 0, 0, 72, 66]

/-- A 36-byte buffer encoding `[500.0] * 6 + [0.0] * 3` (six in-range
frequencies, the rest zero). -/
def freqBuf6 : List Nat :=
  [0, 0, 250, 67, 0, 0, 250, 67, 0, 0, 250, 67, 0, 0, 250, 67,
   0, 0, 250, 67, 0, 0, 250, 67, 0, 0, 0, 0, 0, 0, 0, 0, 0, 0, 0, 0]

/-- A 36-byte buffer encoding `[500.0] * 5 + [0.0] * 4` (only five
in-range frequencies). -/
def freqBuf5 : List Nat :=
  [0, 0, 250, 67, 0, 0, 250, 67, 0, 0, 250, 67, 0, 0, 250, 67,
   0, 0, 250, 67, 0, 0, 0, 0, 0, 0, 0, 0, 0, 0, 0, 0, 0, 0, 0, 0]

/-- A 12-byte all-zero buffer. -/
def zeroBuf12 : List Nat :=
  [0, 0, 0, 0, 0, 0, 0, 0, 0, 0, 0, 0]

/-- C2 (amended): every candidate of the strict-mode array scans has all
values inside the per-unit range and a mean inside the mean range; the
spread bound (`spread < 30`) is enforced only by `search_core_temps` in the
temperature analyzer — the PM-table temperature and power array scans apply
no spread constraint. -/
theorem claim_C2 (data : List Nat) (n : Nat) :
    (∀ c ∈ search_core_temps data n,
      (∀ q ∈ c.values, 25 < q ∧ q < 100) ∧
      35 < qmean c.values ∧ qmean c.values < 85 ∧ qspread c.values < 30) ∧
    (∀ t ∈ search_core_arrays_temps data n,
      (∀ q ∈ t.2.1, 25 < q ∧ q < 95) ∧
      30 < qmean t.2.1 ∧ qmean t.2.1 < 70) ∧
    (∀ t ∈ search_core_arrays_power data n,
      (∀ q ∈ t.2.1, 1 / 2 < q ∧ q < 20) ∧
      2 < qmean t.2.1 ∧ qmean t.2.1 < 15) := by
  refine ⟨?_, ?_, ?_⟩
  · intro c hc
    have hc2 : c ∈ (pyRange4 (data.length - n * 4)).filterMap
        (coreTempWindow data n) := by
      rw [search_core_temps, sortDescBy] at hc
      exact (List.mem_insertionSort _).mp hc
    obtain ⟨b, hb, hw⟩ := List.mem_filterMap.mp hc2
    obtain ⟨-, -, hlen, hmem, havg, h35, h85, hspr, hs30⟩ :=
      coreTempWindow_eq_some hw
    have hq : qmean c.values = c.avg := by
      rw [qmean, hlen, havg]
    have hsp : qspread c.values = c.spread := by
      rw [qspread, hspr]
    rw [hq, hsp]
    exact ⟨hmem, h35, h85, hs30⟩
  · intro t ht
    obtain ⟨b, hb, hw⟩ := List.mem_filterMap.mp ht
    obtain ⟨-, -, hlen, hmem, havg, h1, h2⟩ := pmTempWindow_eq_some hw
    have hq : qmean t.2.1 = t.2.2 := by
      rw [qmean, hlen, havg]
    rw [hq]
    exact ⟨hmem, h1, h2⟩
  · intro t ht
    obtain ⟨b, hb, hw⟩ := List.mem_filterMap.mp ht
    obtain ⟨-, -, hlen, hmem, havg, h1, h2⟩ := pmPowerWindow_eq_some hw
    have hq : qmean t.2.1 = t.2.2 := by
      rw [qmean, hlen, havg]
    rw [hq]
    exact ⟨hmem, h1, h2⟩

/-- C2 as stated is refuted: the PM-table temperature-array scan applies no
spread constraint, so on `[26.0, 90.0, 0.0]` with 2 units it returns the
window `[26, 90]`, whose spread 64 is at or above the catalog's only spread
bound (30) — indeed above any bound up to 64. -/
theorem claim_C2_counterexample :
    search_core_arrays_temps spreadBuf12 2 = [(0, [26, 90], 58)] ∧
    qspread [26, 90] = 64 ∧ ¬ qspread [(26 : ℚ), 90] < 30 := by
  with_unfolding_all decide

theorem claim_C2_witness :
    (35 : ℚ) < qmean [50, 60] ∧ qmean [(50 : ℚ), 60] < 85 ∧
      qspread [(50 : ℚ), 60] < 30 := by
  have h := (claim_C2 coreBuf12 2).1 ⟨0, [50, 60], 55, 10⟩
    (by with_unfolding_all decide)
  exact ⟨h.2.1, h.2.2.1, h.2.2.2⟩

/-- C3: the tolerant frequency-array scan returns a scanned window exactly
when at least `unitCount - 2` of its decoded values lie strictly inside
`(400, 6000)`; an 8-unit window with six values at 500 and two (plus one
beyond) at 0 is returned, while the same window with only five passing
values is not. -/
theorem claim_C3 :
    (∀ (data : List Nat) (n base : Nat) (ws : List (Option PyFloat)),
      (base, ws) ∈ search_core_arrays_freq data n ↔
        base ∈ pyRange4 (data.length - n * 4) ∧
          ws = decodeWindow data base n ∧
          n - 2 ≤ ws.countP inFreqRange) ∧
    (0, decodeWindow freqBuf6 0 8) ∈ search_core_arrays_freq freqBuf6 8 ∧
    search_core_arrays_freq freqBuf5 8 = [] := by
  refine ⟨?_, by with_unfolding_all decide, by with_unfolding_all decide⟩
  intro data n base ws
  rw [search_core_arrays_freq, List.mem_filterMap]
  constructor
  · rintro ⟨b, hb, hw⟩
    obtain ⟨rfl, rfl, hcnt⟩ := pmFreqWindow_eq_some.mp hw
    rw [freqOk_eq_inFreqRange] at hcnt
    exact ⟨hb, rfl, hcnt⟩
  · rintro ⟨hb, rfl, hcnt⟩
    refine ⟨base, hb, pmFreqWindow_eq_some.mpr ⟨rfl, rfl, ?_⟩⟩
    rw [freqOk_eq_inFreqRange]
    exact hcnt

/-- C7 (amended): the temperature analyzer's core-temperature candidates
are sorted by window mean in descending order; the PM-table temperature and
power array candidates are returned unsorted, in ascending base-offset
order. -/
theorem claim_C7 (data : List Nat) (n : Nat) :
    (search_core_temps data n).Pairwise
      (fun a b => qmean b.values ≤ qmean a.values) ∧
    (search_core_arrays_temps data n).Pairwise (fun a b => a.1 < b.1) ∧
    (search_core_arrays_power data n).Pairwise (fun a b => a.1 < b.1) := by
  refine ⟨?_, ?_, ?_⟩
  · have hs := sortDescBy_pairwise_le ArrayCandidate.avg
      ((pyRange4 (data.length - n * 4)).filterMap (coreTempWindow data n))
    have havg : ∀ c ∈ search_core_temps data n, qmean c.values = c.avg := by
      intro c hc
      have hc2 : c ∈ (pyRange4 (data.length - n * 4)).filterMap
          (coreTempWindow data n) := by
        rw [search_core_temps, sortDescBy] at hc
        exact (List.mem_insertionSort _).mp hc
      obtain ⟨b, hb, hw⟩ := List.mem_filterMap.mp hc2
      obtain ⟨-, -, hlen, -, hv, -⟩ := coreTempWindow_eq_some hw
      rw [qmean, hlen, hv]
    refine hs.imp_of_mem ?_
    intro a b ha hb hab
    rw [havg a ha, havg b hb]
    exact hab
  · exact filterMap_pairwise_base Prod.fst (pmTempWindow data n)
      (fun i c hc => (pmTempWindow_eq_some hc).1) (pairwise_pyRange4 _)
  · exact filterMap_pairwise_base Prod.fst (pmPowerWindow data n)
      (fun i c hc => (pmPowerWindow_eq_some hc).1) (pairwise_pyRange4 _)

/-- C7 as stated is refuted: on `[31.0, 31.0, 50.0, 50.0]` with 2 units the
PM-table temperature-array scan returns two candidates whose means (31 and
40.5) appear in ascending, not descending, order — the source prints these
candidates without any sort. -/
theorem claim_C7_counterexample :
    search_core_arrays_temps tempBuf16 2 =
      [(0, [31, 31], 31), (4, [31, 50], 81 / 2)] ∧
    ¬ ((81 / 2 : ℚ) ≤ 31) := by
  with_unfolding_all decide

/-- C8 (amended): every candidate of any array scan has exactly `unitCount`
values; the strict-mode candidates have all values inside the per-unit
range, while tolerant-mode (frequency) candidates only guarantee at least
`unitCount - 2` values inside the per-unit range. -/
theorem claim_C8 (data : List Nat) (n : Nat) :
    (∀ c ∈ search_core_temps data n,
      c.values.length = n ∧ ∀ q ∈ c.values, 25 < q ∧ q < 100) ∧
    (∀ t ∈ search_core_arrays_temps data n,
      t.2.1.length = n ∧ ∀ q ∈ t.2.1, 25 < q ∧ q < 95) ∧
    (∀ t ∈ search_core_arrays_power data n,
      t.2.1.length = n ∧ ∀ q ∈ t.2.1, 1 / 2 < q ∧ q < 20) ∧
    (∀ t ∈ search_core_arrays_freq data n,
      t.2.length = n ∧ n - 2 ≤ t.2.countP inFreqRange) := by
  refine ⟨?_, ?_, ?_, ?_⟩
  · intro c hc
    have hc2 : c ∈ (pyRange4 (data.length - n * 4)).filterMap
        (coreTempWindow data n) := by
      rw [search_core_temps, sortDescBy] at hc
      exact (List.mem_insertionSort _).mp hc
    obtain ⟨b, hb, hw⟩ := List.mem_filterMap.mp hc2
    obtain ⟨-, -, hlen, hmem, -⟩ := coreTempWindow_eq_some hw
    exact ⟨hlen, hmem⟩
  · intro t ht
    obtain ⟨b, hb, hw⟩ := List.mem_filterMap.mp ht
    obtain ⟨-, -, hlen, hmem, -⟩ := pmTempWindow_eq_some hw
    exact ⟨hlen, hmem⟩
  · intro t ht
    obtain ⟨b, hb, hw⟩ := List.mem_filterMap.mp ht
    obtain ⟨-, -, hlen, hmem, -⟩ := pmPowerWindow_eq_some hw
    exact ⟨hlen, hmem⟩
  · intro t ht
    obtain ⟨b, hb, hw⟩ := List.mem_filterMap.mp ht
    obtain ⟨t1, t2⟩ := t
    obtain ⟨rfl, rfl, hcnt⟩ := pmFreqWindow_eq_some.mp hw
    rw [freqOk_eq_inFreqRange] at hcnt
    exact ⟨decodeWindow_length data b n, hcnt⟩

/-- C8 as stated is refuted: the tolerant frequency scan on
`[500.0] * 6 + [0.0] * 3` with 8 units returns the window at base 0, which
contains the value `0.0` — a value that fails the per-unit predicate
`(400, 6000)` used to build the candidate. -/
theorem claim_C8_counterexample :
    (0, decodeWindow freqBuf6 0 8) ∈ search_core_arrays_freq freqBuf6 8 ∧
    some (PyFloat.finite 0) ∈ decodeWindow freqBuf6 0 8 ∧
    inFreqRange (some (PyFloat.finite 0)) = false := by
  with_unfolding_all decide

theorem claim_C8_witness :
    [(50 : ℚ), 60].length = 2 ∧ (25 : ℚ) < 50 ∧ (50 : ℚ) < 100 := by
  have h := (claim_C8 coreBuf12 2).1 ⟨0, [50, 60], 55, 10⟩
    (by with_unfolding_all decide)
  exact ⟨h.1, (h.2 50 (by with_unfolding_all decide)).1,
    (h.2 50 (by with_unfolding_all decide)).2⟩

/-- C10: every window examined by the array scans lies entirely inside the
buffer: for every scanned base, `base + unitCount * 4` does not exceed the
buffer length, and no decoded value of the window is absent. -/
theorem claim_C10 (data : List Nat) (n base : Nat)
    (hb : base ∈ pyRange4 (data.length - n * 4)) :
    base + n * 4 ≤ data.length ∧
      (decodeWindow data base n).all Option.isSome = true := by
  have hbase : base < data.length - n * 4 := (mem_pyRange4.mp hb).2
  constructor
  · omega
  · rw [decodeWindow, List.all_eq_true]
    intro w hw
    obtain ⟨i, hi, rfl⟩ := List.mem_map.mp hw
    have hin : i < n := List.mem_range.mp hi
    rw [read_f32]
    split
    · rename_i hlt
      exfalso
      omega
    · rfl

theorem claim_C10_witness :
    0 + 2 * 4 ≤ zeroBuf12.length ∧
      (decodeWindow zeroBuf12 0 2).all Option.isSome = true :=
  claim_C10 zeroBuf12 2 0 (by with_unfolding_all decide)


/-- Per-offset body of one Live Monitor tick (`watch_temps`): decode the
offset, then keep it only if the value is truthy, mirroring
`... for o, v in zip(offsets, values) if v`. -/
def watchAt (data : List Nat) (o : Nat) : Option PyFloat :=
  match read_f32 data o with
  | some v => if truthy v then some v else none
  | none => none

/-- One tick of `watch_temps` from `analyze_temps.py`: decode every
configured offset against the current snapshot and emit the
`offset:value` pairs whose value passes the `if v` filter, in the
configured offset order. -/
def watch_temps_tick (data : List Nat) (offsets : List Nat) :
    List (Nat × PyFloat) :=
  tagged (watchAt data) offsets

/-- A 4-byte all-zero buffer: offset 0 is in bounds and decodes to `0.0`. -/
def zeroBuf4 : List Nat := [0, 0, 0, 0]

/-- C9 (amended): on a tick, an `offset:value` pair is emitted exactly when
the offset is configured, decodes successfully, and the decoded value is
truthy; consequently an offset past the snapshot length is omitted without
an error, but so is an offset that decodes to `0.0`. -/
theorem claim_C9 :
    (∀ (data : List Nat) (offsets : List Nat) (o : Nat) (v : PyFloat),
      (o, v) ∈ watch_temps_tick data offsets ↔
        o ∈ offsets ∧ read_f32 data o = some v ∧ truthy v = true) ∧
    (∀ (data : List Nat) (offsets : List Nat) (o : Nat) (v : PyFloat),
      data.length < o + 4 → (o, v) ∉ watch_temps_tick data offsets) := by
  have hmem : ∀ (data : List Nat) (offsets : List Nat) (o : Nat) (v : PyFloat),
      (o, v) ∈ watch_temps_tick data offsets ↔
        o ∈ offsets ∧ read_f32 data o = some v ∧ truthy v = true := by
    intro data offsets o v
    rw [watch_temps_tick, mem_tagged]
    unfold watchAt
    cases hr : read_f32 data o with
    | none => simp
    | some w =>
      by_cases ht : truthy w = true
      · simp only [ht, if_true, Option.some.injEq]
        constructor
        · rintro ⟨h1, rfl⟩
          exact ⟨h1, rfl, ht⟩
        · rintro ⟨h1, h2, -⟩
          exact ⟨h1, h2⟩
      · simp only [ht, if_false]
        constructor
        · rintro ⟨-, h⟩
          cases h
        · rintro ⟨h1, h2, h3⟩
          cases h2
          exact absurd h3 ht
  refine ⟨hmem, fun data offsets o v hlen h => ?_⟩
  rcases (hmem data offsets o v).mp h with ⟨-, hr, -⟩
  rw [read_f32, if_pos hlen] at hr
  cases hr

/-- C9 as stated is refuted: on a 4-byte all-zero snapshot with configured
offset 0, the decode succeeds (`0.0` is returned), yet the tick emits
nothing, because the source filters pairs with `if v` and `0.0` is falsy. -/
theorem claim_C9_counterexample :
    read_f32 zeroBuf4 0 = some (PyFloat.finite 0) ∧
    watch_temps_tick zeroBuf4 [0] = [] := by
  with_unfolding_all decide

theorem claim_C9_witness :
    (0, PyFloat.finite 50) ∈ watch_temps_tick specBuf16 [0, 200] :=
  (claim_C9.1 specBuf16 [0, 200] 0 (PyFloat.finite 50)).mpr
    (by with_unfolding_all decide)


theorem claim_C1_witness : 8 ∈ scannedOffsets 16 :=
  (claim_C1.1 16 8).mpr (by norm_num)

theorem claim_C3_witness :
    (0, decodeWindow freqBuf6 0 8) ∈ search_core_arrays_freq freqBuf6 8 :=
  (claim_C3.1 freqBuf6 8 0 (decodeWindow freqBuf6 0 8)).mpr
    (by with_unfolding_all decide)

theorem claim_C6_witness :
    (search_tctl specBuf16).Pairwise
      (fun a b => b.2 ≤ a.2 ∧ (a.2 = b.2 → a.1 < b.1)) :=
  claim_C6 specBuf16

theorem claim_C7_witness :
    (search_core_arrays_temps tempBuf16 2).Pairwise
      (fun a b => a.1 < b.1) :=
  (claim_C7 tempBuf16 2).2.1

end SmuTools
